import Mathlib

/-!
Shallow embedding of the LibAFL core components referenced by the
specification: the in-memory executor and its signal handlers
(afl/src/executors/inmemory.rs), the stages tuple (afl/src/stages/mod.rs),
the generalized input (libafl/src/inputs/generalized.rs), the frida
fuzzer entry point (fuzzers/frida_libpng/src/fuzzer.rs) and the QEMU
cmplog id generation (libafl_qemu/src/cmplog.rs).

Bytes are modelled as `Nat` (values of `u8`), byte buffers as `List Nat`,
pointers/pcs as `Nat` (values of `u64`).
-/

namespace LibAFL

/-- How an execution of the target finished.
The enum itself is declared outside the provided sources; the spec fixes
its variants as `ExitKind ∈ {Ok, Crash, Timeout, Oom, Diff}`. -/
inductive ExitKind where
  | Ok
  | Crash
  | Timeout
  | Oom
  | Diff
deriving DecidableEq, Repr

/-! ## GeneralizedInput (libafl/src/inputs/generalized.rs) -/

/-- An item of the generalized input: real bytes or an insertion point. -/
inductive GeneralizedItem where
  | Bytes (v : List Nat)
  | Gap
deriving DecidableEq, Repr

/-- A bytes input with a generalized version, used for Grimoire. -/
structure GeneralizedInput where
  /-- The raw input bytes -/
  bytes : List Nat
  generalized : Option (List GeneralizedItem)
  /-- If was mutated or not by Grimoire -/
  grimoire_mutated : Bool
deriving DecidableEq, Repr

namespace GeneralizedInput

/-- `GeneralizedInput::new`: raw bytes, no generalized form, clean flag. -/
def new (bytes : List Nat) : GeneralizedInput :=
  { bytes := bytes, generalized := none, grimoire_mutated := false }

/-- `GeneralizedInput::generalized_to_bytes`: concatenate the `Bytes`
items of the generalized form, skipping `Gap`s; empty when absent. -/
def generalized_to_bytes (i : GeneralizedInput) : List Nat :=
  match i.generalized with
  | none => []
  | some gen =>
    gen.foldl
      (fun bytes item =>
        match item with
        | GeneralizedItem.Bytes b => bytes ++ b
        | GeneralizedItem.Gap => bytes)
      []

/-- `<GeneralizedInput as HasTargetBytes>::target_bytes`: the
materialized template when the Grimoire dirty flag is set, the raw
bytes otherwise. -/
def target_bytes (i : GeneralizedInput) : List Nat :=
  if i.grimoire_mutated then i.generalized_to_bytes else i.bytes

/-- `<GeneralizedInput as Input>::wrapped_as_testcase`: drop the
generalized form for inputs produced by bit-level mutations, then clear
the dirty flag. -/
def wrapped_as_testcase (i : GeneralizedInput) : GeneralizedInput :=
  let i :=
    if !i.grimoire_mutated then { i with generalized := none } else i
  { i with grimoire_mutated := false }

/-- The loop body of `GeneralizedInput::generalized_from_options`,
folding over the option slice with the `res`/`bytes` accumulators. -/
def gfo_loop (v : List (Option Nat)) (res : List GeneralizedItem)
    (bytes : List Nat) : List GeneralizedItem × List Nat :=
  match v with
  | [] => (res, bytes)
  | none :: t =>
    let res := if bytes ≠ [] then res ++ [GeneralizedItem.Bytes bytes] else res
    gfo_loop t (res ++ [GeneralizedItem.Gap]) []
  | some b :: t => gfo_loop t res (bytes ++ [b])

/-- The two statements of `GeneralizedInput::generalized_from_options`
that run after the loop: push the pending `bytes` accumulator when
non-empty, then append a trailing `Gap` when the last item is not
already one. -/
def gfo_final (resA : List GeneralizedItem) (bytesA : List Nat) :
    List GeneralizedItem :=
  let res :=
    if bytesA ≠ [] then resA ++ [GeneralizedItem.Bytes bytesA] else resA
  if res.getLast? ≠ some GeneralizedItem.Gap then
    res ++ [GeneralizedItem.Gap]
  else res

/-- `GeneralizedInput::generalized_from_options`: fill the generalized
vector from a slice of options (`None` becomes `Gap`). -/
def generalized_from_options (i : GeneralizedInput) (v : List (Option Nat)) :
    GeneralizedInput :=
  let res0 : List GeneralizedItem :=
    if v.head? ≠ some none then [GeneralizedItem.Gap] else []
  let rb := gfo_loop v res0 []
  { i with generalized := some (gfo_final rb.1 rb.2) }

end GeneralizedInput

/-- Specification-level reading of "the concatenation of all Bytes items
of the generalized sequence, skipping Gaps": used to compare
`generalized_to_bytes` against the spec's words. -/
def bytesItemsConcat (gen : List GeneralizedItem) : List Nat :=
  (gen.filterMap
    (fun item =>
      match item with
      | GeneralizedItem.Bytes b => some b
      | GeneralizedItem.Gap => none)).flatten

/-! ## In-memory executor and signal handlers
(afl/src/executors/inmemory.rs) -/

/-- The synchronous signals for which `setup_crash_handlers` installs a
handler: six fault signals routed to the crash handler and `SIGUSR2`
routed to the timeout handler. -/
inductive Signal where
  | SIGSEGV
  | SIGBUS
  | SIGABRT
  | SIGILL
  | SIGFPE
  | SIGPIPE
  | SIGUSR2
deriving DecidableEq, Repr

/-- The fault signals, exactly the ones bound to
`libaflrs_executor_inmem_handle_crash` in `setup_crash_handlers`. -/
def Signal.isFault : Signal → Bool
  | .SIGSEGV | .SIGBUS | .SIGABRT | .SIGILL | .SIGFPE | .SIGPIPE => true
  | .SIGUSR2 => false

/-- Modelled from the spec: the `ExitKind` enum and its `FromPrimitive`
instance are declared outside the provided sources; the handlers encode
an exit kind as the `longjmp` value ("carrying the exit kind encoded in
the jump value") and the direct `setjmp` return value `0` must decode to
no exit kind so that control proceeds into the harness. -/
def exitKindToJump : ExitKind → Int
  | .Ok => 0
  | .Crash => 1
  | .Timeout => 2
  | .Oom => 3
  | .Diff => 4

/-- Modelled from the spec: partial inverse of `exitKindToJump`, the
`num::FromPrimitive::from_i32` decoding applied to the `setjmp` return
value; `0` (the direct return) decodes to `none`. -/
def exitKindFromJump (v : Int) : Option ExitKind :=
  if v = 1 then some ExitKind.Crash
  else if v = 2 then some ExitKind.Timeout
  else if v = 3 then some ExitKind.Oom
  else if v = 4 then some ExitKind.Diff
  else none

/-- What a signal handler does when it fires: perform the non-local
`longjmp` back to the recorded resume point with the given value, or
return from the handler without jumping. -/
inductive HandlerResult where
  | jump (val : Int)
  | ret
deriving DecidableEq, Repr

/-- `libaflrs_executor_inmem_handle_crash`: prints a diagnostic (a
different one when `IS_HANDLING_EXCEPTIONS` is clear), then
unconditionally `longjmp`s with `ExitKind::Crash as i32` — there is no
early return on a clear flag. -/
def handle_crash (_is_handling_exceptions : Bool) : HandlerResult :=
  HandlerResult.jump (exitKindToJump ExitKind.Crash)

/-- `libaflrs_executor_inmem_handle_timeout`: returns from the handler
when `IS_HANDLING_EXCEPTIONS` is clear, otherwise `longjmp`s with
`ExitKind::Timeout as i32`. -/
def handle_timeout (is_handling_exceptions : Bool) : HandlerResult :=
  if !is_handling_exceptions then HandlerResult.ret
  else HandlerResult.jump (exitKindToJump ExitKind.Timeout)

/-- Dispatch of a handled signal to its installed handler, per
`setup_crash_handlers`. -/
def dispatchSignal (s : Signal) (is_handling_exceptions : Bool) :
    HandlerResult :=
  if s.isFault then handle_crash is_handling_exceptions
  else handle_timeout is_handling_exceptions

/-- Behavior of one harness invocation: either it returns an `ExitKind`
normally, or a handled signal fires while it runs. -/
inductive HarnessOutcome where
  | returns (k : ExitKind)
  | signals (s : Signal)

/-- The error type of the `afl` crate, as the abstract error kinds the
spec lists in §7 (the enum itself is declared outside the provided
sources). -/
inductive AflError where
  | serialize (msg : String)
  | file (msg : String)
  | shuttingDown
  | empty (msg : String)
  | illegalArgument (msg : String)
  | illegalState (msg : String)
  | notImplemented (msg : String)
  | unknown (msg : String)
deriving DecidableEq, Repr

/-- Observable events of one `run_target` call, used to record which
observer hooks run and when the harness is entered. -/
inductive RunEvent where
  | preExecObserver (name : String)
  | harnessInvoked (bytes : List Nat)
  | postExecObserver (name : String)
deriving DecidableEq, Repr

/-- An input of the `afl` crate as `run_target` consumes it: something
with a `target_bytes` view. -/
structure AflInput where
  targetBytes : List Nat

/-- The in-memory executor: a harness function, the observers tuple
(kept as a list of observer names; their hooks are recorded in the run
trace when called), and a name. The harness's behavior is a function of
the byte slice it receives (its `&dyn Executor` argument carries no
state the modelled claims touch). -/
structure InMemoryExecutor where
  harness : List Nat → HarnessOutcome
  observers : List String
  name : String

/-- `InMemoryExecutor::new`. -/
def InMemoryExecutor.new (name : String)
    (harness_fn : List Nat → HarnessOutcome) (observers : List String) :
    InMemoryExecutor :=
  { harness := harness_fn, observers := observers, name := name }

/-- `InMemoryExecutor::run_target`: take the input's target bytes, set
`IS_HANDLING_EXCEPTIONS` and record the resume point (`setjmp` returns 0
on the direct path, whose decode is `none`), run the harness; when a
handled signal fires mid-harness its handler runs with the flag set and
it `longjmp`s, making `setjmp` return the jump value, which is decoded
to the resulting exit kind. Both paths clear the flag and return `Ok`.
The two trailing fallback branches are unreachable: with the flag set
each handler jumps, and only with the values 1 and 2, which decode to
`some`. The returned trace records, in order, the observer hooks and
harness entries that happened during the call. -/
def run_target (e : InMemoryExecutor) (input : AflInput) :
    List RunEvent × Except AflError ExitKind :=
  let bytes := input.targetBytes
  match exitKindFromJump 0 with
  | some exit_kind => ([], Except.ok exit_kind)
  | none =>
    match e.harness bytes with
    | HarnessOutcome.returns ret =>
      ([RunEvent.harnessInvoked bytes], Except.ok ret)
    | HarnessOutcome.signals s =>
      match dispatchSignal s true with
      | HandlerResult.jump val =>
        match exitKindFromJump val with
        | some exit_kind =>
          ([RunEvent.harnessInvoked bytes], Except.ok exit_kind)
        | none => ([RunEvent.harnessInvoked bytes], Except.ok ExitKind.Ok)
      | HandlerResult.ret =>
        ([RunEvent.harnessInvoked bytes], Except.ok ExitKind.Ok)

/-! ## Stages tuple (afl/src/stages/mod.rs)

A stage's `perform` mutates `(rand, state, corpus, engine, manager)` in
place and may fail; we thread that mutable bundle as an explicit state
value of an arbitrary type `S` and keep the `corpus_idx` argument. The
heterogeneous cons-list of stages becomes a `List` of such functions. -/

/-- One stage's `perform`, state-passing style over the mutable bundle
`S`, taking the corpus index. -/
def Stage (S : Type) : Type := S → Nat → Except AflError S

/-- `StagesTuple::perform_all`: the `()` instance returns `Ok(())`; the
`(Head, Tail)` instance performs the head (the `?` operator propagating
its error) and then recurses into the tail. -/
def perform_all {S : Type} (stages : List (Stage S)) (s : S) (corpus_idx : Nat) :
    Except AflError S :=
  match stages with
  | [] => Except.ok s
  | head :: tail =>
    match head s corpus_idx with
    | Except.error e => Except.error e
    | Except.ok s1 => perform_all tail s1 corpus_idx

/-- A stage that records its id in a log state and succeeds; used to
observe which stages `perform_all` performs and in which order. -/
def logStage (i : Nat) : Stage (List Nat) :=
  fun log _ => Except.ok (log ++ [i])

/-- A stage that always fails with the given error. -/
def failStage {S : Type} (e : AflError) : Stage S :=
  fun _ _ => Except.error e

/-! ## Frida fuzzer entry point (fuzzers/frida_libpng/src/fuzzer.rs) -/

/-- The error type of the `libafl` crate as used by the frida fuzzer:
the abstract error kinds the spec lists in §7 (the enum itself is
declared outside the provided sources). -/
inductive FuzzerError where
  | serialize (msg : String)
  | file (msg : String)
  | shuttingDown
  | empty (msg : String)
  | illegalArgument (msg : String)
  | illegalState (msg : String)
  | notImplemented (msg : String)
  | unknown (msg : String)
deriving DecidableEq, Repr

/-- What `main` does with the result of `fuzz`. -/
inductive MainOutcome where
  | cleanFinish
  | fatalPanic
deriving DecidableEq, Repr

/-- The final match of `main`: `Ok(()) | Err(Error::ShuttingDown)`
prints the good-bye message, any other error panics. -/
def mainReport (r : Except FuzzerError Unit) : MainOutcome :=
  match r with
  | Except.ok () => MainOutcome.cleanFinish
  | Except.error FuzzerError.shuttingDown => MainOutcome.cleanFinish
  | Except.error _ => MainOutcome.fatalPanic

/-- `frida_harness`: call the dynamically loaded libfuzzer-style target
on the input's target bytes, discard its `i32` return value, and return
`ExitKind::Ok`. -/
def frida_harness (target_func : List Nat → Int) (input : List Nat) :
    ExitKind :=
  let _ret := target_func input
  ExitKind.Ok

/-! ## QEMU cmplog id generation (libafl_qemu/src/cmplog.rs) -/

/-- The width of the CmpLog map: generated by `libafl_targets/build.rs`
with default 65536. -/
def CMPLOG_MAP_W : Nat := 65536

/-- `QemuCmpsMapMetadata`: the pc→id map (modelled as an association
list, most recent binding first) and the next id to hand out. -/
structure QemuCmpsMapMetadata where
  map : List (Nat × Nat)
  current_id : Nat
deriving DecidableEq, Repr

/-- `QemuCmpsMapMetadata::new`. -/
def QemuCmpsMapMetadata.new : QemuCmpsMapMetadata :=
  { map := [], current_id := 0 }

/-- `gen_unique_cmp_ids`: return `None` for a pc the instrumentation
filter rejects; otherwise create the metadata when absent, then look the
pc up in the map — on a hit return the stored id, on a miss store and
return `current_id` and advance `current_id` to
`(id + 1) & (CMPLOG_MAP_W - 1)`. The first component is the returned
`Option<u64>`, the second the metadata after the call (`none` models
"state has no `QemuCmpsMapMetadata`"). -/
def gen_unique_cmp_ids (must_instrument : Nat → Bool)
    (meta0 : Option QemuCmpsMapMetadata) (pc : Nat) :
    Option Nat × Option QemuCmpsMapMetadata :=
  if !must_instrument pc then (none, meta0)
  else
    let meta := meta0.getD QemuCmpsMapMetadata.new
    match meta.map.lookup pc with
    | some id => (some id, some meta)
    | none =>
      let id := meta.current_id
      (some id,
        some { map := (pc, id) :: meta.map,
               current_id := (id + 1) &&& (CMPLOG_MAP_W - 1) })

/-- The metadata state after a sequence of `gen_unique_cmp_ids` calls at
the given pcs, starting from the given state. -/
def runCmpIdCallsFrom (must_instrument : Nat → Bool)
    (meta0 : Option QemuCmpsMapMetadata) (pcs : List Nat) :
    Option QemuCmpsMapMetadata :=
  pcs.foldl (fun meta pc => (gen_unique_cmp_ids must_instrument meta pc).2)
    meta0

/-- The metadata state after a sequence of `gen_unique_cmp_ids` calls at
the given pcs, starting from a state with no metadata. -/
def runCmpIdCalls (must_instrument : Nat → Bool) (pcs : List Nat) :
    Option QemuCmpsMapMetadata :=
  runCmpIdCallsFrom must_instrument none pcs

/-- The invariant of the cmplog id metadata: the next id and every
stored id are below the map width. -/
def CmpMetaInv (m : QemuCmpsMapMetadata) : Prop :=
  m.current_id < CMPLOG_MAP_W ∧
  ∀ p id, (p, id) ∈ m.map → id < CMPLOG_MAP_W

/-- The pc→id map carried by an optional metadata state (empty when the
metadata is absent). -/
def cmpMapOf : Option QemuCmpsMapMetadata → List (Nat × Nat)
  | none => []
  | some m => m.map

/-! ## Helper lemmas -/

theorem bytesItemsConcat_nil : bytesItemsConcat [] = [] := rfl

theorem bytesItemsConcat_append (l1 l2 : List GeneralizedItem) :
    bytesItemsConcat (l1 ++ l2) = bytesItemsConcat l1 ++ bytesItemsConcat l2 := by
  simp [bytesItemsConcat, List.filterMap_append]

theorem bytesItemsConcat_bytes (b : List Nat) :
    bytesItemsConcat [GeneralizedItem.Bytes b] = b := by
  simp [bytesItemsConcat]

theorem bytesItemsConcat_gap : bytesItemsConcat [GeneralizedItem.Gap] = [] := by
  simp [bytesItemsConcat]

theorem bytesItemsConcat_cons_bytes (b : List Nat) (l : List GeneralizedItem) :
    bytesItemsConcat (GeneralizedItem.Bytes b :: l) =
      b ++ bytesItemsConcat l := by
  simp [bytesItemsConcat, List.filterMap_cons]

theorem bytesItemsConcat_cons_gap (l : List GeneralizedItem) :
    bytesItemsConcat (GeneralizedItem.Gap :: l) = bytesItemsConcat l := by
  simp [bytesItemsConcat, List.filterMap_cons]

theorem gtb_foldl_acc (gen : List GeneralizedItem) (acc : List Nat) :
    gen.foldl
      (fun bytes item =>
        match item with
        | GeneralizedItem.Bytes b => bytes ++ b
        | GeneralizedItem.Gap => bytes)
      acc = acc ++ bytesItemsConcat gen := by
  induction gen generalizing acc with
  | nil => simp [bytesItemsConcat]
  | cons hd tl ih =>
    cases hd with
    | Bytes b =>
      simp only [List.foldl_cons, ih]
      simp [bytesItemsConcat, List.filterMap_cons, List.append_assoc]
    | Gap =>
      simp only [List.foldl_cons, ih]
      simp [bytesItemsConcat, List.filterMap_cons]

theorem generalized_to_bytes_eq (i : GeneralizedInput) :
    i.generalized_to_bytes = bytesItemsConcat (i.generalized.getD []) := by
  cases h : i.generalized with
  | none => simp [GeneralizedInput.generalized_to_bytes, h, bytesItemsConcat]
  | some gen =>
    simp [GeneralizedInput.generalized_to_bytes, h, gtb_foldl_acc]

/-! ## Claim theorems -/

/-- C4: for every `GeneralizedInput`, `target_bytes` returns the
materialized template — the concatenation of all `Bytes` items of the
generalized sequence, skipping `Gap`s — when the dirty flag
`grimoire_mutated` is set, and returns the raw `bytes` field unchanged
when the flag is clear. -/
theorem target_bytes_materializes (i : GeneralizedInput) :
    i.target_bytes =
      if i.grimoire_mutated then bytesItemsConcat (i.generalized.getD [])
      else i.bytes := by
  simp [GeneralizedInput.target_bytes, generalized_to_bytes_eq]

/-- C8: `wrapped_as_testcase` leaves the raw bytes unchanged, always
leaves `grimoire_mutated` false on exit, clears the generalized template
to `None` exactly when `grimoire_mutated` was false on entry, and
preserves the template when the flag was set. -/
theorem wrapped_as_testcase_frame (i : GeneralizedInput) :
    i.wrapped_as_testcase.bytes = i.bytes ∧
    i.wrapped_as_testcase.grimoire_mutated = false ∧
    i.wrapped_as_testcase.generalized =
      (if i.grimoire_mutated then i.generalized else none) := by
  cases h : i.grimoire_mutated <;>
    simp [GeneralizedInput.wrapped_as_testcase, h]

/-- C6: the entry point reports a clean finish on `Ok(())` and on
`Err(Error::ShuttingDown)`, and treats every other error variant as
fatal. -/
theorem main_shutting_down_clean :
    mainReport (Except.ok ()) = MainOutcome.cleanFinish ∧
    mainReport (Except.error FuzzerError.shuttingDown) =
      MainOutcome.cleanFinish ∧
    ∀ e : FuzzerError, e ≠ FuzzerError.shuttingDown →
      mainReport (Except.error e) = MainOutcome.fatalPanic := by
  refine ⟨rfl, rfl, ?_⟩
  intro e he
  cases e <;> first | rfl | exact absurd rfl he

theorem main_shutting_down_clean_witness :
    mainReport (Except.error (FuzzerError.empty "no corpus")) =
      MainOutcome.fatalPanic :=
  main_shutting_down_clean.2.2 (FuzzerError.empty "no corpus")
    (fun h => FuzzerError.noConfusion h)

/-- C7 counterexample: with a loaded target returning the non-zero
value 1, `frida_harness` still returns `ExitKind::Ok`, not
`ExitKind::Crash` as the claim states. -/
theorem frida_harness_nonzero_claim_false :
    frida_harness (fun _ => 1) [0] = ExitKind.Ok ∧
    ExitKind.Ok ≠ ExitKind.Crash := by
  exact ⟨rfl, by decide⟩

/-- C7 amended: the harness wrapper invokes the target on the input's
bytes and returns `ExitKind::Ok` regardless of the target's return
value. -/
theorem frida_harness_always_ok (target_func : List Nat → Int)
    (input : List Nat) :
    frida_harness target_func input = ExitKind.Ok := rfl

/-- C3 counterexample: a fault signal arriving while the
`IS_HANDLING_EXCEPTIONS` flag is clear still makes the crash handler
perform the non-local jump — it does not fall through to the default
disposition. -/
theorem crash_handler_jumps_when_flag_clear :
    handle_crash false = HandlerResult.jump (exitKindToJump ExitKind.Crash) ∧
    handle_crash false ≠ HandlerResult.ret := by
  exact ⟨rfl, by decide⟩

/-- C3 amended: when the flag is clear the timeout handler returns from
the handler without a non-local jump (so the process survives the
signal); the crash handler prints a diagnostic but performs the
non-local jump carrying the crash exit kind regardless of the flag. -/
theorem handlers_flag_clear_behavior :
    handle_timeout false = HandlerResult.ret ∧
    (∀ b : Bool,
      handle_crash b = HandlerResult.jump (exitKindToJump ExitKind.Crash)) ∧
    handle_timeout true =
      HandlerResult.jump (exitKindToJump ExitKind.Timeout) := by
  exact ⟨rfl, fun _ => rfl, rfl⟩

theorem run_target_eq (e : InMemoryExecutor) (input : AflInput) :
    run_target e input =
      ([RunEvent.harnessInvoked input.targetBytes],
        Except.ok
          (match e.harness input.targetBytes with
            | HarnessOutcome.returns k => k
            | HarnessOutcome.signals s =>
              if s.isFault then ExitKind.Crash else ExitKind.Timeout)) := by
  cases hb : e.harness input.targetBytes with
  | returns k => simp [run_target, hb, exitKindFromJump]
  | signals s =>
    cases s <;>
      simp [run_target, hb, exitKindFromJump, dispatchSignal, Signal.isFault,
        handle_crash, handle_timeout, exitKindToJump]

/-- C1 counterexample: at a concrete input, with the observers tuple
holding the observer named "edges", the trace of `run_target` is the
bare harness entry: no `pre_exec` call precedes the harness and no
`post_exec` call follows it, contradicting parts (i) and (iii) of the
claim. -/
theorem runTarget_observer_hooks_claim_false :
    (run_target
        (InMemoryExecutor.new "main"
          (fun _ => HarnessOutcome.returns ExitKind.Ok) ["edges"])
        ⟨[0]⟩).1 = [RunEvent.harnessInvoked [0]] ∧
    RunEvent.preExecObserver "edges" ∉
      (run_target
        (InMemoryExecutor.new "main"
          (fun _ => HarnessOutcome.returns ExitKind.Ok) ["edges"])
        ⟨[0]⟩).1 ∧
    RunEvent.postExecObserver "edges" ∉
      (run_target
        (InMemoryExecutor.new "main"
          (fun _ => HarnessOutcome.returns ExitKind.Ok) ["edges"])
        ⟨[0]⟩).1 := by
  refine ⟨rfl, ?_, ?_⟩ <;> decide

/-- C1 amended: for every input, `run_target` invokes the harness on
the input's target bytes and returns an `ExitKind` even when the
harness triggered a fatal signal; it calls neither `pre_exec` nor
`post_exec` on its observers (those hooks are not driven by
`run_target` in this crate). -/
theorem runTarget_harness_and_exit_kind (e : InMemoryExecutor)
    (input : AflInput) :
    (run_target e input).1 = [RunEvent.harnessInvoked input.targetBytes] ∧
    ∃ k : ExitKind, (run_target e input).2 = Except.ok k := by
  rw [run_target_eq]
  exact ⟨rfl, _, rfl⟩

/-- C2: a handled signal raised while the harness runs never propagates
as an error: `run_target` returns `Ok` with `ExitKind::Crash` when a
fault signal fired and `Ok` with `ExitKind::Timeout` when `SIGUSR2`
fired, the exit kind being carried in the jump value the handler passes
to the non-local jump. -/
theorem runTarget_signal_exit_kinds (obs : List String) (nm : String)
    (input : AflInput) (s : Signal) :
    (s.isFault = true →
      (run_target ⟨fun _ => HarnessOutcome.signals s, obs, nm⟩ input).2 =
          Except.ok ExitKind.Crash ∧
        dispatchSignal s true =
          HandlerResult.jump (exitKindToJump ExitKind.Crash) ∧
        exitKindFromJump (exitKindToJump ExitKind.Crash) =
          some ExitKind.Crash) ∧
    (s = Signal.SIGUSR2 →
      (run_target ⟨fun _ => HarnessOutcome.signals s, obs, nm⟩ input).2 =
          Except.ok ExitKind.Timeout ∧
        dispatchSignal s true =
          HandlerResult.jump (exitKindToJump ExitKind.Timeout) ∧
        exitKindFromJump (exitKindToJump ExitKind.Timeout) =
          some ExitKind.Timeout) := by
  constructor
  · intro hf
    rw [run_target_eq]
    refine ⟨by simp [hf], ?_, by decide⟩
    simp [dispatchSignal, hf, handle_crash]
  · intro hs
    subst hs
    rw [run_target_eq]
    exact ⟨rfl, rfl, by decide⟩

theorem runTarget_signal_exit_kinds_witness :
    Signal.isFault Signal.SIGSEGV = true ∧
    (run_target
        ⟨fun _ => HarnessOutcome.signals Signal.SIGSEGV, ["edges"], "main"⟩
        ⟨[0]⟩).2 = Except.ok ExitKind.Crash ∧
    (run_target
        ⟨fun _ => HarnessOutcome.signals Signal.SIGUSR2, ["edges"], "main"⟩
        ⟨[0]⟩).2 = Except.ok ExitKind.Timeout :=
  ⟨rfl,
    ((runTarget_signal_exit_kinds ["edges"] "main" ⟨[0]⟩ Signal.SIGSEGV).1
        rfl).1,
    ((runTarget_signal_exit_kinds ["edges"] "main" ⟨[0]⟩ Signal.SIGUSR2).2
        rfl).1⟩

theorem perform_all_append {S : Type} (l1 l2 : List (Stage S)) (s : S)
    (idx : Nat) :
    perform_all (l1 ++ l2) s idx =
      match perform_all l1 s idx with
      | Except.ok s1 => perform_all l2 s1 idx
      | Except.error e => Except.error e := by
  induction l1 generalizing s with
  | nil => simp [perform_all]
  | cons hd tl ih =>
    cases h : hd s idx <;> simp [perform_all, h, ih]

theorem perform_all_logStages (ids : List Nat) (log : List Nat) (idx : Nat) :
    perform_all (ids.map logStage) log idx = Except.ok (log ++ ids) := by
  induction ids generalizing log with
  | nil => simp [perform_all]
  | cons i tl ih => simp [perform_all, logStage, ih]

/-- C5: `perform_all` performs each stage exactly once in tuple order —
running the id-logging stages leaves exactly the ids in order in the
log; on the empty tuple it performs nothing and returns `Ok`; when a
stage fails, its error propagates and the stages after it are not
performed (the result does not depend on them). -/
theorem perform_all_order_and_errors :
    (∀ (S : Type) (s : S) (idx : Nat),
      perform_all ([] : List (Stage S)) s idx = Except.ok s) ∧
    (∀ (ids : List Nat) (idx : Nat),
      perform_all (ids.map logStage) [] idx = Except.ok ids) ∧
    (∀ (S : Type) (pre : List (Stage S)) (e : AflError)
        (tl tl' : List (Stage S)) (s : S) (idx : Nat),
      perform_all (pre ++ failStage e :: tl) s idx =
        perform_all (pre ++ failStage e :: tl') s idx) ∧
    (∀ (S : Type) (pre : List (Stage S)) (e : AflError)
        (tl : List (Stage S)) (s s1 : S) (idx : Nat),
      perform_all pre s idx = Except.ok s1 →
      perform_all (pre ++ failStage e :: tl) s idx = Except.error e) := by
  refine ⟨fun S s idx => rfl, ?_, ?_, ?_⟩
  · intro ids idx
    simpa using perform_all_logStages ids [] idx
  · intro S pre e tl tl' s idx
    rw [perform_all_append, perform_all_append]
    cases perform_all pre s idx with
    | error e1 => rfl
    | ok s1 => simp [perform_all, failStage]
  · intro S pre e tl s s1 idx h
    rw [perform_all_append, h]
    simp [perform_all, failStage]

theorem perform_all_order_and_errors_witness :
    perform_all
        ([0, 1].map logStage ++
          (failStage AflError.shuttingDown : Stage (List Nat)) ::
            [logStage 2])
        [] 5 = Except.error AflError.shuttingDown :=
  perform_all_order_and_errors.2.2.2 (List Nat) ([0, 1].map logStage)
    AflError.shuttingDown [logStage 2] [] [0, 1] 5 rfl

theorem gfo_loop_extends (v : List (Option Nat)) :
    ∀ (res : List GeneralizedItem) (bytes : List Nat),
      ∃ ext, (GeneralizedInput.gfo_loop v res bytes).1 = res ++ ext := by
  induction v with
  | nil =>
    intro res bytes
    exact ⟨[], by simp [GeneralizedInput.gfo_loop]⟩
  | cons hd t ih =>
    intro res bytes
    cases hd with
    | none =>
      by_cases hb : bytes = []
      · obtain ⟨ext, hext⟩ := ih (res ++ [GeneralizedItem.Gap]) []
        exact ⟨GeneralizedItem.Gap :: ext, by
          simp [GeneralizedInput.gfo_loop, hb, hext]⟩
      · obtain ⟨ext, hext⟩ :=
          ih (res ++ [GeneralizedItem.Bytes bytes, GeneralizedItem.Gap]) []
        exact ⟨GeneralizedItem.Bytes bytes :: GeneralizedItem.Gap :: ext, by
          simp [GeneralizedInput.gfo_loop, hb, hext, List.append_assoc]⟩
    | some b =>
      obtain ⟨ext, hext⟩ := ih res (bytes ++ [b])
      exact ⟨ext, by simp [GeneralizedInput.gfo_loop, hext]⟩

theorem gfo_loop_concat (v : List (Option Nat)) :
    ∀ (res : List GeneralizedItem) (bytes : List Nat),
      bytesItemsConcat (GeneralizedInput.gfo_loop v res bytes).1 ++
          (GeneralizedInput.gfo_loop v res bytes).2 =
        bytesItemsConcat res ++ bytes ++ v.filterMap id := by
  induction v with
  | nil => intro res bytes; simp [GeneralizedInput.gfo_loop]
  | cons hd t ih =>
    intro res bytes
    cases hd with
    | none =>
      by_cases hb : bytes = []
      · subst hb
        simpa [GeneralizedInput.gfo_loop, bytesItemsConcat_append,
          bytesItemsConcat_gap] using ih (res ++ [GeneralizedItem.Gap]) []
      · have h :=
          ih (res ++ [GeneralizedItem.Bytes bytes, GeneralizedItem.Gap]) []
        simp [GeneralizedInput.gfo_loop, hb, bytesItemsConcat_append,
          bytesItemsConcat_gap, bytesItemsConcat_bytes,
          bytesItemsConcat_cons_bytes, bytesItemsConcat_cons_gap,
          bytesItemsConcat_nil, List.append_assoc] at h ⊢
        exact h
    | some b =>
      have h := ih res (bytes ++ [b])
      simp [GeneralizedInput.gfo_loop, List.append_assoc] at h ⊢
      exact h

theorem gfo_loop_items (v : List (Option Nat)) :
    ∀ (res : List GeneralizedItem) (bytes : List Nat),
      (∀ b, GeneralizedItem.Bytes b ∈ res → b ≠ []) →
      ∀ b, GeneralizedItem.Bytes b ∈ (GeneralizedInput.gfo_loop v res bytes).1 →
        b ≠ [] := by
  induction v with
  | nil =>
    intro res bytes hres
    simpa [GeneralizedInput.gfo_loop] using hres
  | cons hd t ih =>
    intro res bytes hres
    cases hd with
    | none =>
      by_cases hb : bytes = []
      · have hstep :
            GeneralizedInput.gfo_loop (none :: t) res bytes =
              GeneralizedInput.gfo_loop t (res ++ [GeneralizedItem.Gap]) [] := by
          simp [GeneralizedInput.gfo_loop, hb]
        rw [hstep]
        refine ih (res ++ [GeneralizedItem.Gap]) [] ?_
        intro b hbm
        rcases List.mem_append.mp hbm with h | h
        · exact hres b h
        · simp at h
      · have hstep :
            GeneralizedInput.gfo_loop (none :: t) res bytes =
              GeneralizedInput.gfo_loop t
                (res ++ [GeneralizedItem.Bytes bytes] ++ [GeneralizedItem.Gap])
                [] := by
          simp [GeneralizedInput.gfo_loop, hb]
        rw [hstep]
        refine ih
          (res ++ [GeneralizedItem.Bytes bytes] ++ [GeneralizedItem.Gap]) [] ?_
        intro b hbm
        rcases List.mem_append.mp hbm with h | h
        · rcases List.mem_append.mp h with h2 | h2
          · exact hres b h2
          · simp at h2
            subst h2
            exact hb
        · simp at h
    | some b =>
      have hstep :
          GeneralizedInput.gfo_loop (some b :: t) res bytes =
            GeneralizedInput.gfo_loop t res (bytes ++ [b]) := by
        simp [GeneralizedInput.gfo_loop]
      rw [hstep]
      exact ih res (bytes ++ [b]) hres

theorem gfo_loop_res_head (v : List (Option Nat)) :
    ∃ ext,
      (GeneralizedInput.gfo_loop v
          (if v.head? ≠ some none then [GeneralizedItem.Gap] else []) []).1 =
        GeneralizedItem.Gap :: ext := by
  cases v with
  | nil => exact ⟨[], by simp [GeneralizedInput.gfo_loop]⟩
  | cons hd t =>
    cases hd with
    | none =>
      obtain ⟨ext, hext⟩ := gfo_loop_extends t [GeneralizedItem.Gap] []
      refine ⟨ext, ?_⟩
      have hstep :
          GeneralizedInput.gfo_loop (none :: t) [] [] =
            GeneralizedInput.gfo_loop t [GeneralizedItem.Gap] [] := by
        simp [GeneralizedInput.gfo_loop]
      simp [hstep, hext]
    | some b =>
      obtain ⟨ext, hext⟩ := gfo_loop_extends t [GeneralizedItem.Gap] [b]
      refine ⟨ext, ?_⟩
      have hstep :
          GeneralizedInput.gfo_loop (some b :: t) [GeneralizedItem.Gap] [] =
            GeneralizedInput.gfo_loop t [GeneralizedItem.Gap] [b] := by
        simp [GeneralizedInput.gfo_loop]
      simp [hstep, hext]

theorem getLast_cons_append_singleton {α : Type} (a b : α) (l : List α) :
    (a :: (l ++ [b])).getLast? = some b :=
  (List.getLast?_append_cons (a :: l) b []).trans rfl

theorem gfo_final_shape (resA : List GeneralizedItem) (bytesA : List Nat)
    (target : List Nat)
    (hhead : ∃ ext, resA = GeneralizedItem.Gap :: ext)
    (hitems : ∀ b, GeneralizedItem.Bytes b ∈ resA → b ≠ [])
    (hconcat : bytesItemsConcat resA ++ bytesA = target) :
    GeneralizedInput.gfo_final resA bytesA ≠ [] ∧
    (GeneralizedInput.gfo_final resA bytesA).head? =
      some GeneralizedItem.Gap ∧
    (GeneralizedInput.gfo_final resA bytesA).getLast? =
      some GeneralizedItem.Gap ∧
    (∀ b, GeneralizedItem.Bytes b ∈ GeneralizedInput.gfo_final resA bytesA →
      b ≠ []) ∧
    bytesItemsConcat (GeneralizedInput.gfo_final resA bytesA) = target := by
  obtain ⟨ext, hext⟩ := hhead
  subst hext
  by_cases hbA : bytesA = []
  · subst hbA
    by_cases hlast :
        (GeneralizedItem.Gap :: ext).getLast? = some GeneralizedItem.Gap
    · have hfin :
          GeneralizedInput.gfo_final (GeneralizedItem.Gap :: ext) [] =
            GeneralizedItem.Gap :: ext := by
        simp [GeneralizedInput.gfo_final, hlast]
      rw [hfin]
      refine ⟨by simp, by simp, hlast, hitems, ?_⟩
      simpa using hconcat
    · have hfin :
          GeneralizedInput.gfo_final (GeneralizedItem.Gap :: ext) [] =
            (GeneralizedItem.Gap :: ext) ++ [GeneralizedItem.Gap] := by
        simp [GeneralizedInput.gfo_final, hlast]
      rw [hfin]
      refine ⟨by simp, by simp, ?_, ?_, ?_⟩
      · exact getLast_cons_append_singleton _ _ _
      · intro b hbm
        rcases List.mem_append.mp hbm with h | h
        · exact hitems b h
        · simp at h
      · rw [bytesItemsConcat_append, bytesItemsConcat_gap]
        simpa using hconcat
  · have hlast1 :
        (GeneralizedItem.Gap ::
            (ext ++ [GeneralizedItem.Bytes bytesA])).getLast? =
          some (GeneralizedItem.Bytes bytesA) :=
      getLast_cons_append_singleton _ _ _
    have hfin :
        GeneralizedInput.gfo_final (GeneralizedItem.Gap :: ext) bytesA =
          ((GeneralizedItem.Gap :: ext) ++ [GeneralizedItem.Bytes bytesA]) ++
            [GeneralizedItem.Gap] := by
      simp [GeneralizedInput.gfo_final, hbA, hlast1]
    rw [hfin]
    refine ⟨by simp, by simp, ?_, ?_, ?_⟩
    · exact getLast_cons_append_singleton GeneralizedItem.Gap
        GeneralizedItem.Gap (ext ++ [GeneralizedItem.Bytes bytesA])
    · intro b hbm
      rcases List.mem_append.mp hbm with h | h
      · rcases List.mem_append.mp h with h2 | h2
        · exact hitems b h2
        · simp at h2
          subst h2
          exact hbA
      · simp at h
    · rw [bytesItemsConcat_append, bytesItemsConcat_gap,
        bytesItemsConcat_append, bytesItemsConcat_bytes]
      simpa using hconcat

/-- C9: after `generalized_from_options` the generalized field is `Some`
of a non-empty sequence whose first and last items are both `Gap`, in
which every `Bytes` item holds a non-empty byte vector, and whose
`Bytes` items concatenate to exactly the `Some` elements of the input
slice in order. -/
theorem generalized_from_options_shape (i : GeneralizedInput)
    (v : List (Option Nat)) :
    ∃ res,
      (i.generalized_from_options v).generalized = some res ∧
      res ≠ [] ∧
      res.head? = some GeneralizedItem.Gap ∧
      res.getLast? = some GeneralizedItem.Gap ∧
      (∀ b, GeneralizedItem.Bytes b ∈ res → b ≠ []) ∧
      bytesItemsConcat res = v.filterMap id := by
  have h0items :
      ∀ b, GeneralizedItem.Bytes b ∈
          (if v.head? ≠ some none then [GeneralizedItem.Gap] else []) →
        b ≠ [] := by
    split <;> simp
  have h0concat :
      bytesItemsConcat
          (if v.head? ≠ some none then [GeneralizedItem.Gap] else []) =
        [] := by
    split <;> simp [bytesItemsConcat]
  have hconcat :=
    gfo_loop_concat v
      (if v.head? ≠ some none then [GeneralizedItem.Gap] else []) []
  rw [h0concat] at hconcat
  simp only [List.nil_append, List.append_nil] at hconcat
  have hfinal :=
    gfo_final_shape _ _ (v.filterMap id) (gfo_loop_res_head v)
      (gfo_loop_items v _ [] h0items) hconcat
  exact ⟨_, rfl, hfinal.1, hfinal.2.1, hfinal.2.2.1, hfinal.2.2.2.1,
    hfinal.2.2.2.2⟩

theorem gen_not_instrumented (must : Nat → Bool)
    (o : Option QemuCmpsMapMetadata) (pc : Nat) (h : must pc = false) :
    gen_unique_cmp_ids must o pc = (none, o) := by
  simp [gen_unique_cmp_ids, h]

theorem gen_hit (must : Nat → Bool) (o : Option QemuCmpsMapMetadata)
    (pc id : Nat) (hf : must pc = true)
    (hl : (o.getD QemuCmpsMapMetadata.new).map.lookup pc = some id) :
    gen_unique_cmp_ids must o pc =
      (some id, some (o.getD QemuCmpsMapMetadata.new)) := by
  simp [gen_unique_cmp_ids, hf, hl]

theorem gen_miss (must : Nat → Bool) (o : Option QemuCmpsMapMetadata)
    (pc : Nat) (hf : must pc = true)
    (hl : (o.getD QemuCmpsMapMetadata.new).map.lookup pc = none) :
    gen_unique_cmp_ids must o pc =
      (some (o.getD QemuCmpsMapMetadata.new).current_id,
        some
          { map :=
              (pc, (o.getD QemuCmpsMapMetadata.new).current_id) ::
                (o.getD QemuCmpsMapMetadata.new).map,
            current_id :=
              ((o.getD QemuCmpsMapMetadata.new).current_id + 1) &&&
                (CMPLOG_MAP_W - 1) }) := by
  simp [gen_unique_cmp_ids, hf, hl]

theorem lookup_mem {l : List (Nat × Nat)} {pc id : Nat}
    (h : l.lookup pc = some id) : (pc, id) ∈ l := by
  induction l with
  | nil => simp [List.lookup] at h
  | cons hd tl ih =>
    rcases hd with ⟨k, v⟩
    by_cases hk : pc = k
    · subst hk
      rw [List.lookup_cons] at h
      simp at h
      subst h
      exact List.mem_cons_self _ _
    · rw [List.lookup_cons] at h
      simp [beq_eq_false_iff_ne.mpr hk] at h
      exact List.mem_cons_of_mem _ (ih h)

theorem cmp_inv_new : CmpMetaInv QemuCmpsMapMetadata.new := by
  constructor
  · decide
  · intro p id h
    simp [QemuCmpsMapMetadata.new] at h

theorem cmp_inv_getD (o : Option QemuCmpsMapMetadata)
    (h : ∀ m, o = some m → CmpMetaInv m) :
    CmpMetaInv (o.getD QemuCmpsMapMetadata.new) := by
  cases o with
  | none => exact cmp_inv_new
  | some m => exact h m rfl

theorem gen_step_inv (must : Nat → Bool) (o : Option QemuCmpsMapMetadata)
    (pc : Nat) (h : ∀ m, o = some m → CmpMetaInv m) :
    ∀ m', (gen_unique_cmp_ids must o pc).2 = some m' → CmpMetaInv m' := by
  intro m' hm'
  by_cases hf : must pc = true
  · have hbase : CmpMetaInv (o.getD QemuCmpsMapMetadata.new) :=
      cmp_inv_getD o h
    cases hl : (o.getD QemuCmpsMapMetadata.new).map.lookup pc with
    | some id =>
      rw [gen_hit must o pc id hf hl] at hm'
      simp at hm'
      rw [← hm']
      exact hbase
    | none =>
      rw [gen_miss must o pc hf hl] at hm'
      simp at hm'
      rw [← hm']
      constructor
      · exact lt_of_le_of_lt Nat.and_le_right (by decide)
      · intro p id hmem
        rcases List.mem_cons.mp hmem with h2 | h2
        · rw [(Prod.mk.injEq _ _ _ _).mp h2 |>.2]
          exact hbase.1
        · exact hbase.2 p id h2
  · have hf' : must pc = false := by revert hf; cases must pc <;> simp
    rw [gen_not_instrumented must o pc hf'] at hm'
    exact h m' hm'

theorem runFrom_inv (must : Nat → Bool) (pcs : List Nat) :
    ∀ (o : Option QemuCmpsMapMetadata),
      (∀ m, o = some m → CmpMetaInv m) →
      ∀ m', runCmpIdCallsFrom must o pcs = some m' → CmpMetaInv m' := by
  induction pcs with
  | nil => intro o h m' hm'; exact h m' hm'
  | cons pc t ih =>
    intro o h m' hm'
    exact ih _ (gen_step_inv must o pc h) m' hm'

theorem gen_returned_lt (must : Nat → Bool) (o : Option QemuCmpsMapMetadata)
    (pc id : Nat) (hinv : ∀ m, o = some m → CmpMetaInv m)
    (h : (gen_unique_cmp_ids must o pc).1 = some id) : id < CMPLOG_MAP_W := by
  by_cases hf : must pc = true
  · have hbase := cmp_inv_getD o hinv
    cases hl : (o.getD QemuCmpsMapMetadata.new).map.lookup pc with
    | some id2 =>
      rw [gen_hit must o pc id2 hf hl] at h
      simp at h
      rw [← h]
      exact hbase.2 pc id2 (lookup_mem hl)
    | none =>
      rw [gen_miss must o pc hf hl] at h
      simp at h
      rw [← h]
      exact hbase.1
  · have hf' : must pc = false := by revert hf; cases must pc <;> simp
    rw [gen_not_instrumented must o pc hf'] at h
    simp at h

theorem gen_returns_stored (must : Nat → Bool)
    (o : Option QemuCmpsMapMetadata) (pc : Nat) (hf : must pc = true) :
    ∃ id, (gen_unique_cmp_ids must o pc).1 = some id ∧
      (cmpMapOf (gen_unique_cmp_ids must o pc).2).lookup pc = some id := by
  cases hl : (o.getD QemuCmpsMapMetadata.new).map.lookup pc with
  | some id =>
    refine ⟨id, ?_, ?_⟩
    · rw [gen_hit must o pc id hf hl]
    · rw [gen_hit must o pc id hf hl]
      simpa [cmpMapOf] using hl
  | none =>
    refine ⟨(o.getD QemuCmpsMapMetadata.new).current_id, ?_, ?_⟩
    · rw [gen_miss must o pc hf hl]
    · rw [gen_miss must o pc hf hl]
      simp [cmpMapOf, List.lookup_cons]

theorem gen_preserves_lookup (must : Nat → Bool)
    (o : Option QemuCmpsMapMetadata) (pc' p id : Nat)
    (h : (cmpMapOf o).lookup p = some id) :
    (cmpMapOf (gen_unique_cmp_ids must o pc').2).lookup p = some id := by
  cases o with
  | none => simp [cmpMapOf, List.lookup] at h
  | some m =>
    have hm : (cmpMapOf (some m)).lookup p = m.map.lookup p := rfl
    by_cases hf : must pc' = true
    · cases hl :
          ((some m : Option QemuCmpsMapMetadata).getD
              QemuCmpsMapMetadata.new).map.lookup pc' with
      | some id2 =>
        rw [gen_hit must (some m) pc' id2 hf hl]
        exact h
      | none =>
        rw [gen_miss must (some m) pc' hf hl]
        have hne : p ≠ pc' := by
          intro he
          subst he
          rw [hm] at h
          have hl' : m.map.lookup p = none := hl
          rw [h] at hl'
          exact Option.noConfusion hl'
        have h' : m.map.lookup p = some id := h
        simp [cmpMapOf, List.lookup_cons, beq_eq_false_iff_ne.mpr hne, h']
    · have hf' : must pc' = false := by revert hf; cases must pc' <;> simp
      rw [gen_not_instrumented must (some m) pc' hf']
      exact h

theorem runFrom_preserves_lookup (must : Nat → Bool) (pcs : List Nat) :
    ∀ (o : Option QemuCmpsMapMetadata) (p id : Nat),
      (cmpMapOf o).lookup p = some id →
      (cmpMapOf (runCmpIdCallsFrom must o pcs)).lookup p = some id := by
  induction pcs with
  | nil => intro o p id h; exact h
  | cons pc t ih =>
    intro o p id h
    exact ih _ p id (gen_preserves_lookup must o pc p id h)

theorem gen_after_lookup (must : Nat → Bool) (o : Option QemuCmpsMapMetadata)
    (pc id : Nat) (hf : must pc = true)
    (h : (cmpMapOf o).lookup pc = some id) :
    (gen_unique_cmp_ids must o pc).1 = some id := by
  cases o with
  | none => simp [cmpMapOf, List.lookup] at h
  | some m =>
    have hl :
        ((some m : Option QemuCmpsMapMetadata).getD
            QemuCmpsMapMetadata.new).map.lookup pc = some id := h
    rw [gen_hit must (some m) pc id hf hl]

/-- C10: every id returned by `gen_unique_cmp_ids` after any sequence of
calls starting from a state with no metadata is strictly below
`CMPLOG_MAP_W`, and two calls with the same pc that pass the
instrumentation filter return the same id, no matter which calls happen
in between — the pc→id mapping in the metadata is stable once
assigned. -/
theorem gen_unique_cmp_ids_bounded_stable :
    (∀ (must : Nat → Bool) (pcs : List Nat) (pc id : Nat),
      (gen_unique_cmp_ids must (runCmpIdCalls must pcs) pc).1 = some id →
      id < CMPLOG_MAP_W) ∧
    (∀ (must : Nat → Bool) (pcs₁ pcs₂ : List Nat) (pc : Nat),
      must pc = true →
      (gen_unique_cmp_ids must
          (runCmpIdCallsFrom must
            (gen_unique_cmp_ids must (runCmpIdCalls must pcs₁) pc).2 pcs₂)
          pc).1 =
        (gen_unique_cmp_ids must (runCmpIdCalls must pcs₁) pc).1) := by
  constructor
  · intro must pcs pc id h
    have hinv : ∀ m, runCmpIdCalls must pcs = some m → CmpMetaInv m :=
      fun m hm => runFrom_inv must pcs none (by simp) m hm
    exact gen_returned_lt must _ pc id hinv h
  · intro must pcs₁ pcs₂ pc hf
    obtain ⟨id, hid1, hstored⟩ :=
      gen_returns_stored must (runCmpIdCalls must pcs₁) pc hf
    have hpres := runFrom_preserves_lookup must pcs₂ _ pc id hstored
    rw [gen_after_lookup must _ pc id hf hpres, hid1]

theorem gen_unique_cmp_ids_bounded_stable_witness :
    (0 : Nat) < CMPLOG_MAP_W ∧
    (gen_unique_cmp_ids (fun _ => true)
        (runCmpIdCallsFrom (fun _ => true)
          (gen_unique_cmp_ids (fun _ => true)
            (runCmpIdCalls (fun _ => true) []) 7).2 [3, 7, 9])
        7).1 =
      (gen_unique_cmp_ids (fun _ => true)
        (runCmpIdCalls (fun _ => true) []) 7).1 :=
  ⟨gen_unique_cmp_ids_bounded_stable.1 (fun _ => true) [] 7 0 rfl,
    gen_unique_cmp_ids_bounded_stable.2 (fun _ => true) [] [3, 7, 9] 7 rfl⟩

end LibAFL
